import Mathlib

/-
Verification development for the mise-action tool-resolution and cache
engine. The TypeScript sources (src/tools.ts, src/cache.ts, src/utils.ts,
src/types.ts) are shallowly embedded as executable Lean definitions:
JavaScript string builtins (split, trim, join, startsWith, indexOf) are
modelled as explicit functions on character lists, the GitHub Actions
cache store and the filesystem are modelled as oracle functions passed in
as parameters, and thrown exceptions are modelled with explicit outcome
types.
-/

namespace MiseAction

/-- Provenance of a tool requirement, from src/types.ts (the `source`
field of `Tool`). -/
inductive Source where
  | install_args
  | mise_toml
  | tool_versions
deriving DecidableEq, Repr

/-- A required tool at a specific version, from src/types.ts. -/
structure Tool where
  name : String
  version : String
  source : Source
deriving DecidableEq, Repr

/-- System identity, from src/types.ts (`SystemInfo`). -/
structure SystemInfo where
  platform : String
  arch : String
  target : String
  isMusl : Bool
deriving DecidableEq, Repr

/-- Restore/save state of one tool's cache, from src/types.ts
(`ToolCacheInfo`). -/
structure ToolCacheInfo where
  tool : Tool
  cacheKey : String
  cachePath : String
  isRestored : Bool
deriving DecidableEq, Repr

/-- Aggregate outcome of one restore pass, from src/types.ts
(`CacheResult`). -/
structure CacheResult where
  globalCacheHit : Bool
  toolCacheResults : List ToolCacheInfo
  totalTools : Nat
  cachedTools : Nat
  missingTools : List Tool
deriving DecidableEq, Repr

/-! ### Models of the JavaScript string builtins used by the source -/

/-- Whitespace recognised by the JS regexp class backslash-s and by
String.prototype.trim, restricted to the ASCII range. -/
def jsSpace (c : Char) : Bool :=
  c = ' ' ∨ c = '\t' ∨ c = '\n' ∨ c = '\r' ∨ c = '\x0b' ∨ c = '\x0c'

/-- Character-list core of JS String.prototype.split with a one-character
separator: split "a b" on space gives ["a", "b"], splitting the empty
string gives [""]. -/
def splitListChar (sep : Char) : List Char → List (List Char)
  | [] => [[]]
  | c :: cs =>
    if c = sep then [] :: splitListChar sep cs
    else
      match splitListChar sep cs with
      | r :: rs => (c :: r) :: rs
      | [] => [[c]]

/-- Model of JS String.prototype.split with a one-character separator. -/
def jsSplit (sep : Char) (s : String) : List String :=
  (splitListChar sep s.data).map String.mk

/-- Character-list core of JS String.prototype.trim. -/
def trimList (l : List Char) : List Char :=
  ((l.dropWhile jsSpace).reverse.dropWhile jsSpace).reverse

/-- Model of JS String.prototype.trim. -/
def jsTrim (s : String) : String :=
  String.mk (trimList s.data)

/-- Model of JS String.prototype.startsWith with a one-character
argument, as used on "-", "[" and "#" in the source. -/
def jsStartsWithChar (c : Char) (s : String) : Bool :=
  match s.data with
  | [] => false
  | a :: _ => a = c

/-- Model of JS Array.prototype.join with a separator string, on the
character-list level. -/
def joinListChar (sep : Char) : List (List Char) → List Char
  | [] => []
  | [x] => x
  | x :: y :: ys => x ++ sep :: joinListChar sep (y :: ys)

/-- Whether the pattern is a prefix of the list (Boolean, executable). -/
def isPrefixList : List Char → List Char → Bool
  | [], _ => true
  | _ :: _, [] => false
  | a :: as, b :: bs => a = b ∧ isPrefixList as bs

/-- Whether the pattern occurs as a contiguous substring of the list;
models a JS indexOf(pat) > -1 test. -/
def containsSubList (pat : List Char) : List Char → Bool
  | [] => isPrefixList pat []
  | c :: cs => isPrefixList pat (c :: cs) ∨ containsSubList pat cs

/-- Model of a JS s.indexOf(pat) > -1 substring test. -/
def containsSubstr (s pat : String) : Bool :=
  containsSubList pat.data s.data

/-! ### System identity resolver (src/utils.ts) -/

/-- Outcome of invoking an external command via the process-execution
facility: either captured stdout/stderr, or a launch failure (thrown
exception). -/
inductive ExecOutcome where
  | ok (stdout stderr : String)
  | err
deriving DecidableEq, Repr

/-- Embedding of checkIsMusl (src/utils.ts lines 61-72), additionally
reporting how many times the diagnostic external command (ldd --version)
was invoked. The source invokes it exactly once, unconditionally, inside
a try block whose catch returns false. -/
def checkIsMuslTraced (probe : ExecOutcome) : Bool × Nat :=
  match probe with
  | .ok _ stderrOut => (containsSubstr stderrOut "musl", 1)
  | .err => (false, 1)

/-- checkIsMusl without the invocation count. -/
def checkIsMusl (probe : ExecOutcome) : Bool :=
  (checkIsMuslTraced probe).1

/-- The arch normalization at src/utils.ts line 31: arm is rewritten to
armv7, everything else passes through. -/
def normalizeArch (arch : String) : String :=
  if arch = "arm" then "armv7" else arch

/-- Embedding of getSystemInfo (src/utils.ts lines 27-56), parameterised
by process.platform, process.arch and the outcome of the ldd probe; the
second component counts invocations of the diagnostic external command.
A thrown Error is modelled as Except.error carrying the message. -/
def getSystemInfoTraced (platform arch : String) (probe : ExecOutcome) :
    Except String SystemInfo × Nat :=
  let a := normalizeArch arch
  let (isMusl, calls) := checkIsMuslTraced probe
  let res : Except String SystemInfo :=
    if platform = "darwin" then
      .ok ⟨platform, a, "macos-" ++ a, isMusl⟩
    else if platform = "win32" then
      .ok ⟨platform, a, "windows-" ++ a, isMusl⟩
    else if platform = "linux" then
      .ok ⟨platform, a, "linux-" ++ a ++ (if isMusl then "-musl" else ""), isMusl⟩
    else
      .error ("Unsupported platform " ++ platform)
  (res, calls)

/-- getSystemInfo without the invocation count. -/
def getSystemInfo (platform arch : String) (probe : ExecOutcome) :
    Except String SystemInfo :=
  (getSystemInfoTraced platform arch probe).1

/-! ### Tool resolver (src/tools.ts) -/

/-- Embedding of parseToolSpec (src/tools.ts lines 202-214): split on
the at-sign, require exactly two non-empty parts, trim both. -/
def parseToolSpec (spec : String) (src : Source) : Option Tool :=
  match jsSplit '@' spec with
  | [name, version] =>
    if name = "" ∨ version = "" then none
    else some ⟨jsTrim name, jsTrim version, src⟩
  | _ => none

/-- Embedding of parseInstallArgs (src/tools.ts lines 38-53),
parameterised by the install_args input string: an empty input yields no
tools; otherwise split on spaces, drop blank tokens and tokens starting
with a dash, and parse each remaining token as a tool spec. -/
def parseInstallArgs (installArgs : String) : List Tool :=
  if installArgs = "" then []
  else
    let args := (jsSplit ' ' installArgs).filter
      (fun arg => jsTrim arg != "" && !(jsStartsWithChar '-' arg))
    args.filterMap (fun arg => parseToolSpec arg .install_args)

/-- Embedding of generateToolHash (src/tools.ts lines 249-251). -/
def generateToolHash (t : Tool) : String :=
  t.name ++ "-" ++ t.version

/-- Model of JS Array.prototype.join with a one-character separator. -/
def jsJoin (sep : Char) (l : List String) : String :=
  String.mk (joinListChar sep (l.map String.data))

/-- Embedding of toolsToInstallArgs (src/tools.ts lines 256-258). -/
def toolsToInstallArgs (tools : List Tool) : String :=
  jsJoin ' ' (tools.map (fun t => t.name ++ "@" ++ t.version))

/-- The source-precedence table of deduplicateTools (src/tools.ts lines
223-227). -/
def sourcePriority : Source → Nat
  | .install_args => 3
  | .mise_toml => 2
  | .tool_versions => 1

/-- Lookup by tool name in an insertion-ordered association list;
models Map.prototype.get keyed by tool.name. -/
def lookupName : List Tool → String → Option Tool
  | [], _ => none
  | x :: xs, n => if x.name = n then some x else lookupName xs n

/-- Replace the entry with the given tool's name, keeping its position;
models Map.prototype.set on an existing key. -/
def replaceName : List Tool → Tool → List Tool
  | [], _ => []
  | x :: xs, t => if x.name = t.name then t :: xs else x :: replaceName xs t

/-- One iteration of the deduplication loop (src/tools.ts lines
229-239): a new name is appended; an existing name is overwritten in
place exactly when the new candidate's source priority is strictly
greater. -/
def dedupStep (m : List Tool) (t : Tool) : List Tool :=
  match lookupName m t.name with
  | none => m ++ [t]
  | some existing =>
    if sourcePriority existing.source < sourcePriority t.source then replaceName m t
    else m

/-- The Map built by deduplicateTools before sorting, as an
insertion-ordered list of its values. -/
def dedupMap (tools : List Tool) : List Tool :=
  tools.foldl dedupStep []

/-- Primary collation key of the modelled localeCompare: case-folded
code points. -/
def lcPrimary (s : String) : List Nat :=
  s.data.map (fun c => c.toLower.toNat)

/-- Tertiary (case) collation key of the modelled localeCompare:
lowercase before uppercase. -/
def lcCase (s : String) : List Nat :=
  s.data.map (fun c => if c.isUpper then 1 else 0)

/-- Lexicographic three-way comparison of weight lists. -/
def listCompare : List Nat → List Nat → Int
  | [], [] => 0
  | [], _ :: _ => -1
  | _ :: _, [] => 1
  | a :: as, b :: bs =>
    if a < b then -1 else if b < a then 1 else listCompare as bs

/-- Model of JS String.prototype.localeCompare under the default (ICU
root style) collation, restricted to ASCII: letters compare
case-insensitively at the primary level (so "a" sorts before "B"), with
lowercase before uppercase as the tie-break. -/
def localeCompare (s t : String) : Int :=
  if listCompare (lcPrimary s) (lcPrimary t) = 0 then
    listCompare (lcCase s) (lcCase t)
  else listCompare (lcPrimary s) (lcPrimary t)

/-- Stable insertion of a tool into a list sorted by the localeCompare
comparator on names. -/
def insertLC (t : Tool) : List Tool → List Tool
  | [] => [t]
  | x :: xs =>
    if localeCompare x.name t.name ≤ 0 then x :: insertLC t xs
    else t :: x :: xs

/-- Model of Array.prototype.sort with the comparator
(a, b) => a.name.localeCompare(b.name), as a stable insertion sort. -/
def sortByName (l : List Tool) : List Tool :=
  l.foldr insertLC []

/-- Embedding of deduplicateTools (src/tools.ts lines 220-244): build
the name-keyed map by priority, then sort the values by name. -/
def deduplicateTools (tools : List Tool) : List Tool :=
  sortByName (dedupMap tools)

/-- The resolved entry for a given name in the deduplicated output. -/
def resolveByName (tools : List Tool) (n : String) : Option Tool :=
  (deduplicateTools tools).find? (fun t => t.name == n)

/-- One step of folding the candidates sharing a name, mirroring the
strict-priority overwrite of dedupStep on the entry for that name. -/
def combineStep (acc : Option Tool) (t : Tool) : Option Tool :=
  match acc with
  | none => some t
  | some a => some (if sourcePriority a.source < sourcePriority t.source then t else a)

/-- Fold combineStep over a candidate list. -/
def combineCand (acc : Option Tool) (c : List Tool) : Option Tool :=
  c.foldl combineStep acc

/-- Binary winner selection between an accumulated entry and a new
candidate: the new one wins exactly on strictly greater priority. -/
def pickT (a t : Tool) : Tool :=
  if sourcePriority a.source < sourcePriority t.source then t else a

/-- Plain code-point lexicographic comparison of strings, the ordering
named by the specification. -/
def codePointLE (s t : String) : Bool :=
  listCompare (s.data.map Char.toNat) (t.data.map Char.toNat) ≤ 0

/-! ### The mise.toml line parser (src/tools.ts lines 130-197) -/

/-- JS regexp word character class: ASCII letters, digits, underscore. -/
def isWordChar (c : Char) : Bool :=
  c.isAlpha || c.isDigit || c = '_'

/-- A single or double quote character. -/
def isQuoteChar (c : Char) : Bool :=
  c = '"' || c = Char.ofNat 39

/-- The whole-value quoted-string shape of parseTomlToolLine: a quote,
one or more non-quote characters, a quote, nothing else. -/
def stringQuoted (v : List Char) : Option String :=
  match v with
  | [] => none
  | q1 :: rest =>
    if isQuoteChar q1 then
      match rest.getLast? with
      | some q2 =>
        let mid := rest.dropLast
        if isQuoteChar q2 && !mid.isEmpty && mid.all (fun c => !isQuoteChar c) then
          some (String.mk mid)
        else none
      | none => none
    else none

/-- Attempt to match the unanchored version pattern (the literal word
version, optional spaces, an equals sign, optional spaces, then a quoted
string) at the head of the list. -/
def matchVersionAt (cs : List Char) : Option String :=
  if isPrefixList "version".data cs then
    let r1 := (cs.drop 7).dropWhile jsSpace
    match r1 with
    | '=' :: r2 =>
      let r3 := r2.dropWhile jsSpace
      match r3 with
      | q1 :: r4 =>
        if isQuoteChar q1 then
          let body := r4.takeWhile (fun c => !isQuoteChar c)
          let afterBody := r4.dropWhile (fun c => !isQuoteChar c)
          if body.isEmpty then none
          else
            match afterBody with
            | _ :: _ => some (String.mk body)
            | [] => none
        else none
      | [] => none
    | _ => none
  else none

/-- Leftmost match of the unanchored version pattern anywhere in the
list, scanning left to right. -/
def searchVersion : List Char → Option String
  | [] => none
  | c :: cs =>
    match matchVersionAt (c :: cs) with
    | some v => some v
    | none => searchVersion cs

/-- Embedding of parseTomlToolLine (src/tools.ts lines 171-197): a word
name, optional spaces, an equals sign, optional spaces, then a non-empty
value; the version comes from the quoted-string shape or, failing that,
from a version key inside an inline object. -/
def parseTomlToolLine (line : String) : Option Tool :=
  let cs := line.data
  let nameCs := cs.takeWhile isWordChar
  if nameCs.isEmpty then none
  else
    match (cs.dropWhile isWordChar).dropWhile jsSpace with
    | '=' :: rest2 =>
      let v0 := rest2.dropWhile jsSpace
      let valueCs :=
        if v0.isEmpty then
          match rest2.getLast? with
          | some c => [c]
          | none => []
        else v0
      if valueCs.isEmpty then none
      else
        match stringQuoted valueCs with
        | some version => some ⟨String.mk nameCs, version, .mise_toml⟩
        | none =>
          match searchVersion valueCs with
          | some version => some ⟨String.mk nameCs, version, .mise_toml⟩
          | none => none
    | _ => none

/-- Embedding of parseMiseTomlFile (src/tools.ts lines 130-165) applied
to one file's content: a line-by-line scan with an in-tools-section
flag. -/
def parseMiseTomlFile (content : String) : List Tool :=
  ((jsSplit '\n' content).foldl
    (fun (acc : List Tool × Bool) line =>
      let trimmed := jsTrim line
      if trimmed = "[tools]" then (acc.1, true)
      else if jsStartsWithChar '[' trimmed && trimmed != "[tools]" then (acc.1, false)
      else if acc.2 && trimmed != "" && !(jsStartsWithChar '#' trimmed) then
        match parseTomlToolLine trimmed with
        | some t => (acc.1 ++ [t], acc.2)
        | none => acc
      else acc)
    ([], false)).1

/-! ### Two-tier cache engine (src/cache.ts) -/

/-- One call to the cache store's restore operation: either it returns a
matched key (or undefined for a miss), or it raises. Models
cache.restoreCache keyed by the cache key string. -/
inductive RestoreOutcome where
  | ret (key : Option String)
  | err
deriving DecidableEq, Repr

/-- JS Boolean() on a string-or-undefined value, as used in
Boolean(cacheKey). -/
def jsTruthy : Option String → Bool
  | none => false
  | some s => s != ""

/-- The per-tool cache key built at src/cache.ts lines 246-247. -/
def toolCacheKey (kp target : String) (t : Tool) : String :=
  kp ++ "-" ++ target ++ "-tool-" ++ generateToolHash t

/-- The per-tool install path built at src/cache.ts lines 248-253. -/
def toolCachePath (md : String) (t : Tool) : String :=
  md ++ "/installs/" ++ t.name ++ "/" ++ t.version

/-- The global cache key built at src/cache.ts line 214. -/
def globalCacheKey (kp target version : String) : String :=
  kp ++ "-" ++ target ++ "-" ++ version ++ "-global"

/-- The body of one iteration of restoreToolCaches (src/cache.ts lines
245-282): build the key and path, look up the store, and degrade a
raised error to a miss for this tool only. -/
def restoreOneTool (target kp md : String) (store : String → RestoreOutcome)
    (tool : Tool) : ToolCacheInfo :=
  let key := toolCacheKey kp target tool
  let cachePath := toolCachePath md tool
  match store key with
  | .ret k => ⟨tool, key, cachePath, jsTruthy k⟩
  | .err => ⟨tool, key, cachePath, false⟩

/-- Embedding of restoreToolCaches (src/cache.ts lines 239-286);
Promise.all keeps the results in input order. -/
def restoreToolCaches (tools : List Tool) (target kp md : String)
    (store : String → RestoreOutcome) : List ToolCacheInfo :=
  tools.map (restoreOneTool target kp md store)

/-- Embedding of restoreGlobalMiseCache (src/cache.ts lines 209-234). -/
def restoreGlobalMiseCache (target version kp : String)
    (store : String → RestoreOutcome) : Bool :=
  match store (globalCacheKey kp target version) with
  | .ret k => jsTruthy k
  | .err => false

/-- Embedding of restoreAllCaches (src/cache.ts lines 147-204). The
fatal flag models the outer try/catch: when the restore path itself
raises (for example identity resolution throwing), the result degrades
to all-miss. -/
def restoreAllCaches (tools : List Tool) (target version kp md : String)
    (store : String → RestoreOutcome) (fatal : Bool) : CacheResult :=
  if fatal then
    { globalCacheHit := false
      toolCacheResults := tools.map (fun tool => ⟨tool, "", "", false⟩)
      totalTools := tools.length
      cachedTools := 0
      missingTools := tools }
  else
    let globalCacheHit := restoreGlobalMiseCache target version kp store
    let results := restoreToolCaches tools target kp md store
    { globalCacheHit := globalCacheHit
      toolCacheResults := results
      totalTools := tools.length
      cachedTools := (results.filter (fun t => t.isRestored)).length
      missingTools := (results.filter (fun t => !t.isRestored)).map (fun t => t.tool) }

/-- The lookup used by saveAllCaches (src/cache.ts lines 310-312): the
first entry matching the installed tool by exact name and version. -/
def findToolInfo (results : List ToolCacheInfo) (tool : Tool) : Option ToolCacheInfo :=
  results.find? (fun t => t.tool.name == tool.name && t.tool.version == tool.version)

/-- Embedding of saveToolCache (src/cache.ts lines 357-377) as the save
invocation it performs: none when the on-disk path is missing. -/
def saveToolCacheCall (existsFS : String → Bool) (info : ToolCacheInfo) :
    Option ToolCacheInfo :=
  if existsFS info.cachePath then some info else none

/-- The per-installed-tool body of saveAllCaches (src/cache.ts lines
309-317): the store's save operation is reached only when a matching
entry exists and it was not restored. -/
def saveForTool (existsFS : String → Bool) (cacheResult : CacheResult)
    (tool : Tool) : Option ToolCacheInfo :=
  match findToolInfo cacheResult.toolCacheResults tool with
  | some info => if !info.isRestored then saveToolCacheCall existsFS info else none
  | none => none

/-- The list of per-tool save invocations performed by saveAllCaches
(src/cache.ts lines 291-325), guarded by the cache_save input. -/
def saveAllCachesToolSaves (saveEnabled : Bool) (existsFS : String → Bool)
    (cacheResult : CacheResult) (installedTools : List Tool) : List ToolCacheInfo :=
  if !saveEnabled then []
  else installedTools.filterMap (saveForTool existsFS cacheResult)

/-- A concrete CacheResult for the saveAllCaches witness: one entry,
restored. -/
def cacheResultW : CacheResult :=
  { globalCacheHit := true
    toolCacheResults := [⟨⟨"node", "18", .install_args⟩, "key-node", "path-node", true⟩]
    totalTools := 1
    cachedTools := 1
    missingTools := [] }

/-- Concrete store for the failure-isolation witness: raises for the
node tool's key, returns a hit for everything else. -/
def storeW : String → RestoreOutcome :=
  fun k => if k = "p-t-tool-node-18" then .err else .ret (some "hit")

/-- Concrete tool list for the failure-isolation witness. -/
def toolsW : List Tool :=
  [⟨"node", "18", .tool_versions⟩, ⟨"python", "3", .tool_versions⟩]

/-! ### Helper lemmas -/

theorem length_filter_partition (p : α → Bool) (l : List α) :
    (l.filter p).length + (l.filter (fun a => !p a)).length = l.length := by
  induction l with
  | nil => rfl
  | cons x xs ih =>
    by_cases h : p x
    · simp [List.filter_cons, h]
      omega
    · simp [List.filter_cons, h]
      omega

theorem restoreOneTool_tool (target kp md : String) (store : String → RestoreOutcome)
    (t : Tool) : (restoreOneTool target kp md store t).tool = t := by
  cases h : store (toolCacheKey kp target t) <;> simp [restoreOneTool, h]

theorem forced_entries_tools (ts : List Tool) :
    (((ts.map (fun t => (⟨t, "", "", false⟩ : ToolCacheInfo))).filter
      (fun e => !e.isRestored)).map (fun e => e.tool)) = ts := by
  induction ts with
  | nil => rfl
  | cons x xs ih => simp [List.filter_cons, ih]

theorem restoreToolCaches_tools (tools : List Tool) (target kp md : String)
    (store : String → RestoreOutcome) :
    (restoreToolCaches tools target kp md store).map (fun e => e.tool) = tools := by
  unfold restoreToolCaches
  rw [List.map_map]
  have : ((fun e : ToolCacheInfo => e.tool) ∘ restoreOneTool target kp md store) = id := by
    funext t
    exact restoreOneTool_tool target kp md store t
  rw [this, List.map_id]

/-- Claim C1: the partition invariant of restoreAllCaches. The returned
CacheResult satisfies cachedTools + length of missingTools = totalTools;
missingTools is exactly the tools of the entries whose isRestored is
false, in order; and the entries list the input tools in input order (so
missingTools is a sub-sequence of the input in the original order). -/
theorem restoreAllCaches_partition (tools : List Tool) (target version kp md : String)
    (store : String → RestoreOutcome) (fatal : Bool) :
    (restoreAllCaches tools target version kp md store fatal).totalTools = tools.length
    ∧ (restoreAllCaches tools target version kp md store fatal).cachedTools
      + (restoreAllCaches tools target version kp md store fatal).missingTools.length
      = (restoreAllCaches tools target version kp md store fatal).totalTools
    ∧ (restoreAllCaches tools target version kp md store fatal).missingTools
      = (((restoreAllCaches tools target version kp md store fatal).toolCacheResults.filter
          (fun e => !e.isRestored)).map (fun e => e.tool))
    ∧ (restoreAllCaches tools target version kp md store fatal).toolCacheResults.map
        (fun e => e.tool) = tools := by
  cases fatal with
  | true =>
    refine ⟨rfl, by simp [restoreAllCaches], ?_, ?_⟩
    · show tools = ((tools.map (fun t => (⟨t, "", "", false⟩ : ToolCacheInfo))).filter
        (fun e => !e.isRestored)).map (fun e => e.tool)
      exact (forced_entries_tools tools).symm
    · show (tools.map (fun t => (⟨t, "", "", false⟩ : ToolCacheInfo))).map
        (fun e => e.tool) = tools
      rw [List.map_map]
      have hcomp : ((fun e : ToolCacheInfo => e.tool)
          ∘ fun t => (⟨t, "", "", false⟩ : ToolCacheInfo)) = id := rfl
      rw [hcomp, List.map_id]
  | false =>
    refine ⟨rfl, ?_, rfl, restoreToolCaches_tools tools target kp md store⟩
    show ((restoreToolCaches tools target kp md store).filter (fun t => t.isRestored)).length
      + (((restoreToolCaches tools target kp md store).filter
          (fun t => !t.isRestored)).map (fun t => t.tool)).length = tools.length
    rw [List.length_map]
    have h := length_filter_partition (fun t : ToolCacheInfo => t.isRestored)
      (restoreToolCaches tools target kp md store)
    have hlen : (restoreToolCaches tools target kp md store).length = tools.length := by
      simp [restoreToolCaches]
    omega

/-- Claim C3: saveAllCaches never reaches the store's save operation for
a tool whose matching entry was restored, nor for a tool without a
matching entry. Every performed save invocation carries an entry with
isRestored false that is the (first) matching entry of some installed
tool; and per installed tool, a restored or absent matching entry yields
no save invocation. -/
theorem saveAllCaches_no_redundant_save (saveEnabled : Bool) (existsFS : String → Bool)
    (cacheResult : CacheResult) (installedTools : List Tool) :
    (∀ i ∈ saveAllCachesToolSaves saveEnabled existsFS cacheResult installedTools,
      i.isRestored = false ∧ i ∈ cacheResult.toolCacheResults
      ∧ ∃ t ∈ installedTools, findToolInfo cacheResult.toolCacheResults t = some i)
    ∧ ∀ t ∈ installedTools,
      (∀ info, findToolInfo cacheResult.toolCacheResults t = some info →
        info.isRestored = true → saveForTool existsFS cacheResult t = none)
      ∧ (findToolInfo cacheResult.toolCacheResults t = none →
        saveForTool existsFS cacheResult t = none) := by
  constructor
  · intro i hi
    rcases saveEnabled with _ | _
    · simp [saveAllCachesToolSaves] at hi
    · have hi2 : i ∈ installedTools.filterMap (saveForTool existsFS cacheResult) := hi
      obtain ⟨t, ht, hsave⟩ := List.mem_filterMap.mp hi2
      cases hfind : findToolInfo cacheResult.toolCacheResults t with
      | none => simp [saveForTool, hfind] at hsave
      | some info =>
        cases hres : info.isRestored with
        | true => simp [saveForTool, hfind, hres] at hsave
        | false =>
          by_cases hex : existsFS info.cachePath
          · obtain rfl : info = i := by
              simpa [saveForTool, hfind, hres, saveToolCacheCall, hex] using hsave
            exact ⟨hres, List.mem_of_find?_eq_some hfind, t, ht, hfind⟩
          · simp [saveForTool, hfind, hres, saveToolCacheCall, hex] at hsave
  · intro t _
    refine ⟨?_, ?_⟩
    · intro info hfind hres
      simp [saveForTool, hfind, hres]
    · intro hfind
      simp [saveForTool, hfind]

/-- Witness for saveAllCaches_no_redundant_save: with a restored node
entry, neither the installed node tool (matching entry restored) nor the
installed go tool (no matching entry) produces a save invocation. -/
theorem saveAllCaches_no_redundant_save_witness :
    saveForTool (fun _ => true) cacheResultW ⟨"node", "18", .install_args⟩ = none
    ∧ saveForTool (fun _ => true) cacheResultW ⟨"go", "1", .install_args⟩ = none := by
  have h := (saveAllCaches_no_redundant_save true (fun _ => true) cacheResultW
    [⟨"node", "18", .install_args⟩, ⟨"go", "1", .install_args⟩]).2
  constructor
  · exact (h ⟨"node", "18", .install_args⟩ (by simp)).1
      ⟨⟨"node", "18", .install_args⟩, "key-node", "path-node", true⟩ (by decide) rfl
  · exact (h ⟨"go", "1", .install_args⟩ (by simp)).2 (by decide)

theorem restoreToolCaches_get (tools : List Tool) (target kp md : String)
    (store : String → RestoreOutcome) (j : Nat) (hj : j < tools.length) :
    (restoreToolCaches tools target kp md store).get
      ⟨j, by simpa [restoreToolCaches] using hj⟩
      = restoreOneTool target kp md store (tools.get ⟨j, hj⟩) := by
  simp [restoreToolCaches]

/-- Claim C4: failure isolation of restoreToolCaches. When the store
raises for exactly the tool at position i0 and returns for every other
tool, the entry at i0 is forced to a miss while every other entry's
isRestored is exactly the truthiness of its own lookup's returned key. -/
theorem restore_failure_isolation (tools : List Tool) (target kp md : String)
    (store : String → RestoreOutcome) (i0 : Nat) (h0 : i0 < tools.length)
    (herr : store (toolCacheKey kp target (tools.get ⟨i0, h0⟩)) = .err)
    (hothers : ∀ (j : Nat) (hj : j < tools.length), j ≠ i0 →
      store (toolCacheKey kp target (tools.get ⟨j, hj⟩)) ≠ .err) :
    (restoreToolCaches tools target kp md store).length = tools.length
    ∧ ((restoreToolCaches tools target kp md store).get
        ⟨i0, by simpa [restoreToolCaches] using h0⟩).isRestored = false
    ∧ ∀ (j : Nat) (hj : j < tools.length), j ≠ i0 →
      ∃ k, store (toolCacheKey kp target (tools.get ⟨j, hj⟩)) = .ret k
        ∧ ((restoreToolCaches tools target kp md store).get
            ⟨j, by simpa [restoreToolCaches] using hj⟩).isRestored = jsTruthy k := by
  refine ⟨by simp [restoreToolCaches], ?_, ?_⟩
  · rw [restoreToolCaches_get tools target kp md store i0 h0]
    simp only [List.get_eq_getElem] at herr
    simp [restoreOneTool, herr]
  · intro j hj hne
    cases hk : store (toolCacheKey kp target (tools.get ⟨j, hj⟩)) with
    | err => exact absurd hk (hothers j hj hne)
    | ret k =>
      refine ⟨k, rfl, ?_⟩
      rw [restoreToolCaches_get tools target kp md store j hj]
      simp only [List.get_eq_getElem] at hk
      simp [restoreOneTool, hk]

/-- Witness for restore_failure_isolation: node's lookup raises and is
degraded to a miss, python's lookup returns a key and is recorded as a
hit. -/
theorem restore_failure_isolation_witness :
    ((restoreToolCaches toolsW "t" "p" "m" storeW).get
      ⟨0, by simp [restoreToolCaches, toolsW]⟩).isRestored = false
    ∧ ∃ k, storeW (toolCacheKey "p" "t" (toolsW.get ⟨1, by simp [toolsW]⟩)) = .ret k
      ∧ ((restoreToolCaches toolsW "t" "p" "m" storeW).get
          ⟨1, by simp [restoreToolCaches, toolsW]⟩).isRestored = jsTruthy k := by
  have h := restore_failure_isolation toolsW "t" "p" "m" storeW 0
    (by simp [toolsW]) (by decide)
    (by
      intro j hj hne
      have hj2 : j < 2 := by simpa [toolsW] using hj
      interval_cases j
      · exact absurd rfl hne
      · show storeW (toolCacheKey "p" "t" ⟨"python", "3", .tool_versions⟩) ≠ .err
        decide)
  exact ⟨h.2.1, h.2.2 1 (by simp [toolsW]) (by decide)⟩

/-- Claim C5: target tag composition and the unsupported-platform error
of getSystemInfo. darwin yields macos-arch, win32 yields windows-arch,
linux yields linux-arch with a -musl suffix exactly when musl was
detected; arm is normalized to armv7 and other arch strings pass
through; every other platform yields an error naming the platform, and
the three supported platforms never do. -/
theorem getSystemInfo_target_spec (platform arch : String) (probe : ExecOutcome) :
    (platform = "darwin" →
      getSystemInfo platform arch probe =
        .ok ⟨platform, normalizeArch arch, "macos-" ++ normalizeArch arch, checkIsMusl probe⟩)
    ∧ (platform = "win32" →
      getSystemInfo platform arch probe =
        .ok ⟨platform, normalizeArch arch, "windows-" ++ normalizeArch arch, checkIsMusl probe⟩)
    ∧ (platform = "linux" →
      getSystemInfo platform arch probe =
        .ok ⟨platform, normalizeArch arch,
          "linux-" ++ normalizeArch arch ++ (if checkIsMusl probe then "-musl" else ""),
          checkIsMusl probe⟩)
    ∧ (platform ≠ "darwin" → platform ≠ "win32" → platform ≠ "linux" →
      getSystemInfo platform arch probe = .error ("Unsupported platform " ++ platform))
    ∧ normalizeArch "arm" = "armv7"
    ∧ (arch ≠ "arm" → normalizeArch arch = arch) := by
  refine ⟨?_, ?_, ?_, ?_, rfl, ?_⟩ <;> intro h
  · subst h; rfl
  · subst h; rfl
  · subst h; rfl
  · intro h2 h3
    simp only [getSystemInfo, getSystemInfoTraced, if_neg h, if_neg h2, if_neg h3]
  · simp only [normalizeArch, if_neg h]

/-- Witness for getSystemInfo_target_spec at concrete inputs: all four
platform branches and both arch branches evaluated. -/
theorem getSystemInfo_target_spec_witness :
    getSystemInfo "darwin" "arm" .err = .ok ⟨"darwin", "armv7", "macos-armv7", false⟩
    ∧ getSystemInfo "win32" "x64" .err = .ok ⟨"win32", "x64", "windows-x64", false⟩
    ∧ getSystemInfo "linux" "x64" (.ok "" "musl libc") =
        .ok ⟨"linux", "x64", "linux-x64-musl", true⟩
    ∧ getSystemInfo "plan9" "x64" .err = .error "Unsupported platform plan9" := by
  refine ⟨?_, ?_, ?_, ?_⟩
  · have h := (getSystemInfo_target_spec "darwin" "arm" .err).1 rfl
    simpa using h
  · have h := (getSystemInfo_target_spec "win32" "x64" .err).2.1 rfl
    simpa using h
  · have h := (getSystemInfo_target_spec "linux" "x64" (.ok "" "musl libc")).2.2.1 rfl
    have hm : checkIsMusl (.ok "" "musl libc") = true := by decide
    rw [h, hm]
    rfl
  · exact (getSystemInfo_target_spec "plan9" "x64" .err).2.2.2.1
      (by decide) (by decide) (by decide) |>.trans rfl

/-- Claim C6: contrary to the specification, the musl probe (the
diagnostic external command) is invoked exactly once on every platform,
darwin included, and the isMusl field on darwin is taken from the probe
output, so it can be true: evaluated at platform darwin with a probe
whose stderr contains the musl marker. -/
theorem muslProbe_invoked_on_darwin :
    getSystemInfoTraced "darwin" "x64" (.ok "" "musl libc (x86_64)") =
      (.ok ⟨"darwin", "x64", "macos-x64", true⟩, 1)
    ∧ (getSystemInfoTraced "darwin" "x64" (.ok "" "musl libc (x86_64)")).2 ≠ 0
    ∧ (getSystemInfoTraced "win32" "x64" .err).2 = 1 := by
  refine ⟨?_, by decide, rfl⟩
  have hm : checkIsMuslTraced (.ok "" "musl libc (x86_64)") = (true, 1) := by decide
  simp [getSystemInfoTraced, hm, normalizeArch]

/-! ### Deduplication theory -/

theorem lookupName_some {m : List Tool} {n : String} {w : Tool}
    (h : lookupName m n = some w) : w ∈ m ∧ w.name = n := by
  induction m with
  | nil => simp [lookupName] at h
  | cons x xs ih =>
    by_cases hx : x.name = n
    · rw [lookupName, if_pos hx] at h
      injection h with h
      subst h
      exact ⟨List.mem_cons_self x xs, hx⟩
    · rw [lookupName, if_neg hx] at h
      obtain ⟨hm, hn⟩ := ih h
      exact ⟨List.mem_cons_of_mem x hm, hn⟩

theorem lookupName_none {m : List Tool} {n : String} :
    lookupName m n = none ↔ ∀ x ∈ m, x.name ≠ n := by
  induction m with
  | nil => simp [lookupName]
  | cons x xs ih =>
    by_cases hx : x.name = n <;> simp [lookupName, hx, ih]

theorem lookupName_append (m₁ m₂ : List Tool) (n : String) :
    lookupName (m₁ ++ m₂) n =
      match lookupName m₁ n with
      | some w => some w
      | none => lookupName m₂ n := by
  induction m₁ with
  | nil => simp [lookupName]
  | cons x xs ih =>
    by_cases hx : x.name = n <;> simp [lookupName, hx, ih]

theorem lookupName_replaceName (m : List Tool) (t : Tool) (n : String) (e : Tool)
    (hm : lookupName m t.name = some e) :
    lookupName (replaceName m t) n =
      if t.name = n then some t else lookupName m n := by
  induction m with
  | nil => simp [lookupName] at hm
  | cons x xs ih =>
    by_cases hx : x.name = t.name
    · rw [show replaceName (x :: xs) t = t :: xs from by simp [replaceName, hx]]
      by_cases hn : t.name = n
      · simp [lookupName, hn]
      · have hxn : ¬ x.name = n := fun hc => hn (hx ▸ hc)
        simp [lookupName, hn, hxn]
    · have hm2 : lookupName xs t.name = some e := by
        simpa [lookupName, hx] using hm
      rw [show replaceName (x :: xs) t = x :: replaceName xs t from by
        simp [replaceName, hx]]
      by_cases hn : x.name = n
      · have htn : ¬ t.name = n := fun hc => hx (hn.symm ▸ hc ▸ rfl)
        simp [lookupName, hn, htn]
      · simp [lookupName, hn, ih hm2]

theorem dedupStep_lookup (m : List Tool) (t : Tool) (n : String) :
    lookupName (dedupStep m t) n =
      if t.name = n then combineStep (lookupName m n) t else lookupName m n := by
  cases hm : lookupName m t.name with
  | none =>
    rw [show dedupStep m t = m ++ [t] from by unfold dedupStep; rw [hm]]
    rw [lookupName_append]
    by_cases hn : t.name = n
    · subst hn
      rw [hm]
      simp [lookupName, combineStep]
    · cases h2 : lookupName m n <;> simp [lookupName, hn, h2]
  | some e =>
    have hstep : dedupStep m t =
        if sourcePriority e.source < sourcePriority t.source then replaceName m t
        else m := by
      unfold dedupStep; rw [hm]
    by_cases hp : sourcePriority e.source < sourcePriority t.source
    · rw [hstep, if_pos hp, lookupName_replaceName m t n e hm]
      by_cases hn : t.name = n
      · subst hn
        rw [hm]
        simp [combineStep, hp]
      · simp [hn]
    · rw [hstep, if_neg hp]
      by_cases hn : t.name = n
      · subst hn
        rw [hm]
        simp [combineStep, hp, hm]
      · simp [hn]

theorem foldl_dedupStep_lookup (l : List Tool) (m : List Tool) (n : String) :
    lookupName (List.foldl dedupStep m l) n =
      combineCand (lookupName m n) (l.filter (fun t => t.name == n)) := by
  induction l generalizing m with
  | nil => rfl
  | cons t l ih =>
    rw [List.foldl_cons, ih]
    by_cases hn : t.name = n
    · rw [List.filter_cons_of_pos (by simpa using hn), dedupStep_lookup, if_pos hn]
      rfl
    · rw [List.filter_cons_of_neg (by simpa using hn), dedupStep_lookup, if_neg hn]

theorem dedupMap_lookup (l : List Tool) (n : String) :
    lookupName (dedupMap l) n = combineCand none (l.filter (fun t => t.name == n)) := by
  unfold dedupMap
  rw [foldl_dedupStep_lookup]
  rfl

theorem combineCand_some (c : List Tool) (a : Tool) :
    combineCand (some a) c = some (c.foldl pickT a) := by
  induction c generalizing a with
  | nil => rfl
  | cons t cs ih =>
    show combineCand (some (pickT a t)) cs = _
    rw [ih]
    rfl

theorem foldl_pickT_mem (c : List Tool) (a : Tool) : c.foldl pickT a ∈ a :: c := by
  induction c generalizing a with
  | nil => simp
  | cons t cs ih =>
    have h := ih (pickT a t)
    rw [List.foldl_cons]
    rcases List.mem_cons.mp h with h1 | h1
    · rw [h1]
      by_cases hp : sourcePriority a.source < sourcePriority t.source
      · simp [pickT, hp]
      · simp [pickT, hp]
    · simp [h1]

theorem foldl_pickT_ge (c : List Tool) (a : Tool) :
    sourcePriority a.source ≤ sourcePriority (c.foldl pickT a).source
    ∧ ∀ x ∈ c, sourcePriority x.source ≤ sourcePriority (c.foldl pickT a).source := by
  induction c generalizing a with
  | nil => exact ⟨le_refl _, by simp⟩
  | cons t cs ih =>
    obtain ⟨h1, h2⟩ := ih (pickT a t)
    have ha : sourcePriority a.source ≤ sourcePriority (pickT a t).source := by
      unfold pickT
      split_ifs with hp
      · exact le_of_lt hp
      · exact le_refl _
    have ht : sourcePriority t.source ≤ sourcePriority (pickT a t).source := by
      unfold pickT
      split_ifs with hp
      · exact le_refl _
      · exact Nat.le_of_not_lt hp
    rw [List.foldl_cons]
    refine ⟨le_trans ha h1, ?_⟩
    intro x hx
    rcases List.mem_cons.mp hx with rfl | h
    · exact le_trans ht h1
    · exact h2 x h

theorem dedup_winner (l : List Tool) (n : String) (w : Tool)
    (hwl : w ∈ l) (hwn : w.name = n)
    (hmax : ∀ t ∈ l, t.name = n → sourcePriority t.source ≤ sourcePriority w.source)
    (huniq : ∀ t ∈ l, t.name = n →
      sourcePriority t.source = sourcePriority w.source → t = w) :
    lookupName (dedupMap l) n = some w := by
  rw [dedupMap_lookup]
  have hwc : w ∈ l.filter (fun t => t.name == n) :=
    List.mem_filter.mpr ⟨hwl, by simpa using hwn⟩
  cases hc : l.filter (fun t => t.name == n) with
  | nil => rw [hc] at hwc; simp at hwc
  | cons t0 ts =>
    rw [hc] at hwc
    show combineCand none (t0 :: ts) = some w
    have hcc : combineCand none (t0 :: ts) = some (ts.foldl pickT t0) := by
      show combineCand (some t0) ts = _
      exact combineCand_some ts t0
    rw [hcc]
    congr 1
    have hmem : ts.foldl pickT t0 ∈ t0 :: ts := foldl_pickT_mem ts t0
    have hmem2 : ts.foldl pickT t0 ∈ l.filter (fun t => t.name == n) := by
      rw [hc]; exact hmem
    obtain ⟨hrl, hrn⟩ := List.mem_filter.mp hmem2
    have hrn2 : (ts.foldl pickT t0).name = n := by simpa using hrn
    have hge : sourcePriority w.source ≤ sourcePriority (ts.foldl pickT t0).source := by
      obtain ⟨h1, h2⟩ := foldl_pickT_ge ts t0
      rcases List.mem_cons.mp hwc with rfl | h
      · exact h1
      · exact h2 w h
    exact huniq (ts.foldl pickT t0) hrl hrn2
      (le_antisymm (hmax (ts.foldl pickT t0) hrl hrn2) hge)

theorem replaceName_names (m : List Tool) (t : Tool) :
    (replaceName m t).map (fun x => x.name) = m.map (fun x => x.name) := by
  induction m with
  | nil => rfl
  | cons x xs ih =>
    by_cases hx : x.name = t.name
    · simp [replaceName, hx]
    · simp [replaceName, hx, ih]

theorem dedupStep_names_nodup (m : List Tool) (t : Tool)
    (h : (m.map (fun x => x.name)).Nodup) :
    ((dedupStep m t).map (fun x => x.name)).Nodup := by
  cases hm : lookupName m t.name with
  | none =>
    rw [show dedupStep m t = m ++ [t] from by unfold dedupStep; rw [hm]]
    have hnotin : t.name ∉ m.map (fun x => x.name) := by
      intro hc
      obtain ⟨x, hxm, hxn⟩ := List.mem_map.mp hc
      exact (lookupName_none.mp hm x hxm) hxn
    simp [List.nodup_append, h, hnotin]
  | some e =>
    have hstep : dedupStep m t =
        if sourcePriority e.source < sourcePriority t.source then replaceName m t
        else m := by
      unfold dedupStep; rw [hm]
    by_cases hp : sourcePriority e.source < sourcePriority t.source
    · rw [hstep, if_pos hp, replaceName_names]
      exact h
    · rw [hstep, if_neg hp]
      exact h

theorem dedupMap_names_nodup (l : List Tool) :
    ((dedupMap l).map (fun x => x.name)).Nodup := by
  have haux : ∀ m, (m.map (fun x => x.name)).Nodup →
      ((List.foldl dedupStep m l).map (fun x => x.name)).Nodup := by
    induction l with
    | nil => intro m h; exact h
    | cons t ls ih =>
      intro m h
      rw [List.foldl_cons]
      exact ih _ (dedupStep_names_nodup m t h)
  exact haux [] (by simp)

theorem insertLC_perm (t : Tool) (l : List Tool) : List.Perm (insertLC t l) (t :: l) := by
  induction l with
  | nil => exact List.Perm.refl _
  | cons x xs ih =>
    by_cases h : localeCompare x.name t.name ≤ 0
    · rw [show insertLC t (x :: xs) = x :: insertLC t xs from by simp [insertLC, h]]
      exact (ih.cons x).trans (List.Perm.swap t x xs)
    · rw [show insertLC t (x :: xs) = t :: x :: xs from by simp [insertLC, h]]

theorem sortByName_perm (l : List Tool) : List.Perm (sortByName l) l := by
  induction l with
  | nil => exact List.Perm.refl _
  | cons x xs ih =>
    show List.Perm (insertLC x (sortByName xs)) (x :: xs)
    exact (insertLC_perm x (sortByName xs)).trans (ih.cons x)

theorem resolveByName_eq_lookup (l : List Tool) (n : String) :
    resolveByName l n = lookupName (dedupMap l) n := by
  unfold resolveByName deduplicateTools
  cases hlk : lookupName (dedupMap l) n with
  | none =>
    apply List.find?_eq_none.mpr
    intro x hx
    have hxm : x ∈ dedupMap l := (sortByName_perm (dedupMap l)).mem_iff.mp hx
    have hne := lookupName_none.mp hlk x hxm
    simpa using hne
  | some w =>
    obtain ⟨hwm, hwn⟩ := lookupName_some hlk
    have hwm2 : w ∈ sortByName (dedupMap l) := (sortByName_perm _).mem_iff.mpr hwm
    have hsome : ((sortByName (dedupMap l)).find? (fun t => t.name == n)).isSome := by
      rw [List.find?_isSome]
      exact ⟨w, hwm2, by simpa using hwn⟩
    obtain ⟨x, hx⟩ := Option.isSome_iff_exists.mp hsome
    rw [hx]
    have hxp := List.find?_some hx
    have hxm : x ∈ dedupMap l :=
      (sortByName_perm _).mem_iff.mp (List.mem_of_find?_eq_some hx)
    have hxw : x = w := by
      have hnd := dedupMap_names_nodup l
      refine List.inj_on_of_nodup_map hnd hxm hwm ?_
      rw [hwn]
      simpa using hxp
    rw [hxw]

/-- Claim C2: strict source precedence in deduplication. With candidates
for one name drawn from all three sources (distinct versions), the
resolved entry is the explicit-arguments candidate; with that candidate
removed, the declarative-config (mise.toml) one; with both removed, the
lockfile (.tool-versions) one — each regardless of candidate order. -/
theorem dedup_source_precedence (n : String) (tIA tMT tTV : Tool)
    (hIAn : tIA.name = n) (hIAs : tIA.source = .install_args)
    (hMTn : tMT.name = n) (hMTs : tMT.source = .mise_toml)
    (hTVn : tTV.name = n) (hTVs : tTV.source = .tool_versions)
    (hv1 : tIA.version ≠ tMT.version) (hv2 : tIA.version ≠ tTV.version)
    (hv3 : tMT.version ≠ tTV.version) :
    (∀ l, tIA ∈ l → (∀ t ∈ l, t.name = n → t = tIA ∨ t = tMT ∨ t = tTV) →
      resolveByName l n = some tIA)
    ∧ (∀ l, tMT ∈ l → (∀ t ∈ l, t.name = n → t = tMT ∨ t = tTV) →
      resolveByName l n = some tMT)
    ∧ (∀ l, tTV ∈ l → (∀ t ∈ l, t.name = n → t = tTV) →
      resolveByName l n = some tTV) := by
  refine ⟨?_, ?_, ?_⟩
  · intro l hmem hall
    rw [resolveByName_eq_lookup]
    apply dedup_winner l n tIA hmem hIAn
    · intro t ht htn
      rcases hall t ht htn with rfl | rfl | rfl
      · exact le_refl _
      · rw [hMTs, hIAs]; decide
      · rw [hTVs, hIAs]; decide
    · intro t ht htn hps
      rcases hall t ht htn with rfl | rfl | rfl
      · rfl
      · rw [hMTs, hIAs] at hps; exact absurd hps (by decide)
      · rw [hTVs, hIAs] at hps; exact absurd hps (by decide)
  · intro l hmem hall
    rw [resolveByName_eq_lookup]
    apply dedup_winner l n tMT hmem hMTn
    · intro t ht htn
      rcases hall t ht htn with rfl | rfl
      · exact le_refl _
      · rw [hTVs, hMTs]; decide
    · intro t ht htn hps
      rcases hall t ht htn with rfl | rfl
      · rfl
      · rw [hTVs, hMTs] at hps; exact absurd hps (by decide)
  · intro l hmem hall
    rw [resolveByName_eq_lookup]
    apply dedup_winner l n tTV hmem hTVn
    · intro t ht htn
      rcases hall t ht htn with rfl
      exact le_refl _
    · intro t ht htn hps
      rcases hall t ht htn with rfl
      rfl

/-- Witness for dedup_source_precedence at concrete candidates for the
name node, one from each source, in each of the three scenarios. -/
theorem dedup_source_precedence_witness :
    resolveByName [⟨"node", "18", .tool_versions⟩, ⟨"node", "19", .mise_toml⟩,
      ⟨"node", "20", .install_args⟩] "node" = some ⟨"node", "20", .install_args⟩
    ∧ resolveByName [⟨"node", "18", .tool_versions⟩, ⟨"node", "19", .mise_toml⟩] "node"
      = some ⟨"node", "19", .mise_toml⟩
    ∧ resolveByName [⟨"node", "18", .tool_versions⟩] "node"
      = some ⟨"node", "18", .tool_versions⟩ := by
  have h := dedup_source_precedence "node" ⟨"node", "20", .install_args⟩
    ⟨"node", "19", .mise_toml⟩ ⟨"node", "18", .tool_versions⟩
    rfl rfl rfl rfl rfl rfl (by decide) (by decide) (by decide)
  refine ⟨h.1 _ (by simp) ?_, h.2.1 _ (by simp) ?_, h.2.2 _ (by simp) ?_⟩
  · intro t ht htn
    simp only [List.mem_cons, List.not_mem_nil, or_false] at ht
    tauto
  · intro t ht htn
    simp only [List.mem_cons, List.not_mem_nil, or_false] at ht
    tauto
  · intro t ht htn
    simp only [List.mem_cons, List.not_mem_nil, or_false] at ht
    tauto

/-- Claim C10: within deduplication, a later candidate with the same
name never displaces the current winner unless its source priority is
strictly greater; at equal (or lower) priority the earlier winner is
kept. -/
theorem dedup_keep_first (l : List Tool) (tNew w : Tool)
    (hw : resolveByName l tNew.name = some w) :
    (sourcePriority tNew.source ≤ sourcePriority w.source →
      resolveByName (l ++ [tNew]) tNew.name = some w)
    ∧ (sourcePriority w.source < sourcePriority tNew.source →
      resolveByName (l ++ [tNew]) tNew.name = some tNew) := by
  have key : lookupName (dedupMap (l ++ [tNew])) tNew.name
      = combineStep (lookupName (dedupMap l) tNew.name) tNew := by
    rw [dedupMap_lookup, dedupMap_lookup, List.filter_append,
      show List.filter (fun t => t.name == tNew.name) [tNew] = [tNew] from by simp]
    unfold combineCand
    rw [List.foldl_append]
    rfl
  rw [resolveByName_eq_lookup] at hw
  constructor
  · intro hle
    rw [resolveByName_eq_lookup, key, hw]
    show some (if sourcePriority w.source < sourcePriority tNew.source
      then tNew else w) = some w
    rw [if_neg (Nat.not_lt.mpr hle)]
  · intro hlt
    rw [resolveByName_eq_lookup, key, hw]
    show some (if sourcePriority w.source < sourcePriority tNew.source
      then tNew else w) = some tNew
    rw [if_pos hlt]

/-- Witness for dedup_keep_first: an equal-priority later candidate for
node is ignored, a strictly higher-priority one replaces the entry. -/
theorem dedup_keep_first_witness :
    resolveByName ([⟨"node", "1", .mise_toml⟩] ++ [⟨"node", "2", .mise_toml⟩]) "node"
      = some ⟨"node", "1", .mise_toml⟩
    ∧ resolveByName ([⟨"node", "1", .mise_toml⟩] ++ [⟨"node", "3", .install_args⟩]) "node"
      = some ⟨"node", "3", .install_args⟩ := by
  have h1 := dedup_keep_first [⟨"node", "1", .mise_toml⟩] ⟨"node", "2", .mise_toml⟩
    ⟨"node", "1", .mise_toml⟩ (by decide)
  have h2 := dedup_keep_first [⟨"node", "1", .mise_toml⟩] ⟨"node", "3", .install_args⟩
    ⟨"node", "1", .mise_toml⟩ (by decide)
  exact ⟨h1.1 (by decide), h2.2 (by decide)⟩

/-! ### Sortedness of the deduplicated output -/

theorem listCompare_eq_zero : ∀ (a b : List Nat), listCompare a b = 0 ↔ a = b := by
  intro a
  induction a with
  | nil => intro b; cases b <;> simp [listCompare]
  | cons x xs ih =>
    intro b
    cases b with
    | nil => simp [listCompare]
    | cons y ys =>
      simp only [listCompare]
      split_ifs with h1 h2
      · constructor
        · intro hc; exact absurd hc (by decide)
        · intro hc
          injection hc with h h
          omega
      · constructor
        · intro hc; exact absurd hc (by decide)
        · intro hc
          injection hc with h h
          omega
      · have hxy : x = y := by omega
        subst hxy
        simp [ih ys]

theorem listCompare_flip : ∀ (a b : List Nat), listCompare b a = - listCompare a b := by
  intro a
  induction a with
  | nil => intro b; cases b <;> simp [listCompare]
  | cons x xs ih =>
    intro b
    cases b with
    | nil => simp [listCompare]
    | cons y ys =>
      simp only [listCompare]
      rcases lt_trichotomy x y with h | h | h
      · have h1 : ¬ y < x := by omega
        simp [h, h1]
      · subst h
        simp [lt_irrefl]
        exact ih ys
      · have h1 : ¬ x < y := by omega
        simp [h, h1]

theorem listCompare_le_trans : ∀ (a b c : List Nat),
    listCompare a b ≤ 0 → listCompare b c ≤ 0 → listCompare a c ≤ 0 := by
  intro a
  induction a with
  | nil =>
    intro b c _ _
    cases c <;> simp [listCompare]
  | cons x xs ih =>
    intro b c h1 h2
    cases b with
    | nil => simp [listCompare] at h1
    | cons y ys =>
      cases c with
      | nil => simp [listCompare] at h2
      | cons z zs =>
        simp only [listCompare] at h1 h2 ⊢
        split_ifs at h1 h2 ⊢ <;> try omega
        exact ih ys zs h1 h2

theorem listCompare_lt_of_lt_of_le : ∀ (a b c : List Nat),
    listCompare a b < 0 → listCompare b c ≤ 0 → listCompare a c < 0 := by
  intro a
  induction a with
  | nil =>
    intro b c h1 h2
    cases b with
    | nil => simp [listCompare] at h1
    | cons y ys =>
      cases c with
      | nil => simp [listCompare] at h2
      | cons z zs => simp [listCompare]
  | cons x xs ih =>
    intro b c h1 h2
    cases b with
    | nil => simp [listCompare] at h1
    | cons y ys =>
      cases c with
      | nil => simp [listCompare] at h2
      | cons z zs =>
        simp only [listCompare] at h1 h2 ⊢
        split_ifs at h1 h2 ⊢ <;> try omega
        exact ih ys zs h1 h2

theorem localeCompare_flip (s t : String) : localeCompare t s = - localeCompare s t := by
  unfold localeCompare
  rw [listCompare_flip (lcPrimary s) (lcPrimary t), listCompare_flip (lcCase s) (lcCase t)]
  by_cases h : listCompare (lcPrimary s) (lcPrimary t) = 0
  · rw [if_pos h, if_pos (by omega)]
  · rw [if_neg h, if_neg (by omega)]

theorem localeCompare_le_trans (s t u : String)
    (h1 : localeCompare s t ≤ 0) (h2 : localeCompare t u ≤ 0) :
    localeCompare s u ≤ 0 := by
  unfold localeCompare at h1 h2 ⊢
  by_cases p1 : listCompare (lcPrimary s) (lcPrimary t) = 0
  · have e1 : lcPrimary s = lcPrimary t := (listCompare_eq_zero _ _).mp p1
    rw [if_pos p1] at h1
    by_cases p2 : listCompare (lcPrimary t) (lcPrimary u) = 0
    · have p3 : listCompare (lcPrimary s) (lcPrimary u) = 0 := by rw [e1]; exact p2
      rw [if_pos p2] at h2
      rw [if_pos p3]
      exact listCompare_le_trans _ _ _ h1 h2
    · rw [if_neg p2] at h2
      have p3 : listCompare (lcPrimary s) (lcPrimary u)
          = listCompare (lcPrimary t) (lcPrimary u) := by rw [e1]
      rw [p3, if_neg p2]
      exact h2
  · rw [if_neg p1] at h1
    by_cases p2 : listCompare (lcPrimary t) (lcPrimary u) = 0
    · have e2 : lcPrimary t = lcPrimary u := (listCompare_eq_zero _ _).mp p2
      have p3 : listCompare (lcPrimary s) (lcPrimary u)
          = listCompare (lcPrimary s) (lcPrimary t) := by rw [e2]
      rw [p3, if_neg p1]
      exact h1
    · rw [if_neg p2] at h2
      have p3 : listCompare (lcPrimary s) (lcPrimary u) < 0 :=
        listCompare_lt_of_lt_of_le _ _ _ (by omega) h2
      rw [if_neg (by omega)]
      omega

theorem pairwise_insertLC (t : Tool) (l : List Tool)
    (h : l.Pairwise (fun a b => localeCompare a.name b.name ≤ 0)) :
    (insertLC t l).Pairwise (fun a b => localeCompare a.name b.name ≤ 0) := by
  induction l with
  | nil => simp [insertLC]
  | cons x xs ih =>
    rw [List.pairwise_cons] at h
    obtain ⟨hx, hxs⟩ := h
    by_cases hc : localeCompare x.name t.name ≤ 0
    · rw [show insertLC t (x :: xs) = x :: insertLC t xs from by simp [insertLC, hc]]
      rw [List.pairwise_cons]
      refine ⟨?_, ih hxs⟩
      intro y hy
      have hy2 : y = t ∨ y ∈ xs := by
        have hmm := (insertLC_perm t xs).mem_iff.mp hy
        simpa using hmm
      rcases hy2 with rfl | hy2
      · exact hc
      · exact hx y hy2
    · rw [show insertLC t (x :: xs) = t :: x :: xs from by simp [insertLC, hc]]
      rw [List.pairwise_cons]
      have htx : localeCompare t.name x.name ≤ 0 := by
        rw [localeCompare_flip]
        omega
      constructor
      · intro y hy
        rcases List.mem_cons.mp hy with rfl | hy2
        · exact htx
        · exact localeCompare_le_trans _ _ _ htx (hx y hy2)
      · rw [List.pairwise_cons]
        exact ⟨hx, hxs⟩

theorem sortByName_pairwise (l : List Tool) :
    (sortByName l).Pairwise (fun a b => localeCompare a.name b.name ≤ 0) := by
  induction l with
  | nil => simp [sortByName]
  | cons x xs ih =>
    show (insertLC x (sortByName xs)).Pairwise (fun a b => localeCompare a.name b.name ≤ 0)
    exact pairwise_insertLC x (sortByName xs) ih

/-- Claim C9 (amended): the deduplicated output is sorted ascending by
name under the locale-aware localeCompare comparator the source passes
to sort — not under plain code-point ordering. -/
theorem dedup_sorted_by_localeCompare (tools : List Tool) :
    (deduplicateTools tools).Pairwise (fun a b => localeCompare a.name b.name ≤ 0) :=
  sortByName_pairwise (dedupMap tools)

/-- Counterexample to claim C9 as stated: with tool names B and a, the
deduplicated output is ordered a before B by the locale-aware
comparator, which is not code-point sorted, since the code point of a
exceeds that of B. -/
theorem dedup_sort_not_codepoint :
    deduplicateTools [⟨"B", "1", .tool_versions⟩, ⟨"a", "1", .tool_versions⟩]
      = [⟨"a", "1", .tool_versions⟩, ⟨"B", "1", .tool_versions⟩]
    ∧ codePointLE "a" "B" = false
    ∧ ¬ (deduplicateTools [⟨"B", "1", .tool_versions⟩,
          ⟨"a", "1", .tool_versions⟩]).Pairwise
        (fun a b => codePointLE a.name b.name = true) := by
  have heq : deduplicateTools [⟨"B", "1", .tool_versions⟩, ⟨"a", "1", .tool_versions⟩]
      = [⟨"a", "1", .tool_versions⟩, ⟨"B", "1", .tool_versions⟩] := by decide
  refine ⟨heq, by decide, ?_⟩
  rw [heq]
  intro h
  rw [List.pairwise_cons] at h
  have hab := h.1 ⟨"B", "1", .tool_versions⟩ (by simp)
  exact absurd hab (by decide)

/-! ### Cache-key injectivity -/

theorem data_append (a b : String) : (a ++ b).data = a.data ++ b.data := by
  cases a
  cases b
  rfl

theorem string_eq_of_data (a b : String) (h : a.data = b.data) : a = b := by
  cases a
  cases b
  exact congrArg String.mk h

theorem string_append_left_cancel (p a b : String) (h : p ++ a = p ++ b) : a = b := by
  apply string_eq_of_data
  have hd := congrArg String.data h
  rw [data_append, data_append] at hd
  exact List.append_cancel_left hd

theorem append_dash_cancel : ∀ (l₁ l₂ r₁ r₂ : List Char),
    ('-' : Char) ∉ l₁ → ('-' : Char) ∉ l₂ →
    l₁ ++ '-' :: r₁ = l₂ ++ '-' :: r₂ → l₁ = l₂ ∧ r₁ = r₂ := by
  intro l₁
  induction l₁ with
  | nil =>
    intro l₂ r₁ r₂ _ h2 he
    cases l₂ with
    | nil =>
      refine ⟨rfl, ?_⟩
      simpa using he
    | cons c cs =>
      injection he with hh _
      exact absurd (by rw [← hh]; exact List.mem_cons_self _ _) h2
  | cons a as ih =>
    intro l₂ r₁ r₂ h1 h2 he
    cases l₂ with
    | nil =>
      injection he with hh _
      exact absurd (by rw [hh]; exact List.mem_cons_self _ _) h1
    | cons c cs =>
      injection he with hh ht
      have h1' : ('-' : Char) ∉ as := fun hc => h1 (List.mem_cons_of_mem a hc)
      have h2' : ('-' : Char) ∉ cs := fun hc => h2 (List.mem_cons_of_mem c hc)
      obtain ⟨hl, hr⟩ := ih cs r₁ r₂ h1' h2' ht
      exact ⟨by rw [hh, hl], hr⟩

theorem generateToolHash_inj (t₁ t₂ : Tool)
    (h₁ : ('-' : Char) ∉ t₁.name.data) (h₂ : ('-' : Char) ∉ t₂.name.data)
    (he : generateToolHash t₁ = generateToolHash t₂) :
    t₁.name = t₂.name ∧ t₁.version = t₂.version := by
  unfold generateToolHash at he
  have hd := congrArg String.data he
  simp only [data_append, List.append_assoc, List.singleton_append] at hd
  have hd2 : t₁.name.data ++ '-' :: t₁.version.data
      = t₂.name.data ++ '-' :: t₂.version.data := by
    simpa using hd
  obtain ⟨hn, hv⟩ := append_dash_cancel _ _ _ _ h₁ h₂ hd2
  exact ⟨string_eq_of_data _ _ hn, string_eq_of_data _ _ hv⟩

/-- Claim C7 (amended): for tools whose names contain no dash, the
tool-hash and hence the full per-tool cache key determine the name and
version; injectivity fails without the dash-free restriction, as the
counterexample shows. -/
theorem toolCacheKey_injective_dashfree (t₁ t₂ : Tool) (kp target : String)
    (h₁ : ('-' : Char) ∉ t₁.name.data) (h₂ : ('-' : Char) ∉ t₂.name.data)
    (hkey : toolCacheKey kp target t₁ = toolCacheKey kp target t₂) :
    t₁.name = t₂.name ∧ t₁.version = t₂.version := by
  apply generateToolHash_inj t₁ t₂ h₁ h₂
  exact string_append_left_cancel (kp ++ "-" ++ target ++ "-tool-") _ _ hkey

/-- Witness for toolCacheKey_injective_dashfree at a concrete dash-free
tool and key. -/
theorem toolCacheKey_injective_dashfree_witness :
    (⟨"node", "18", .install_args⟩ : Tool).name
      = (⟨"node", "18", .install_args⟩ : Tool).name
    ∧ (⟨"node", "18", .install_args⟩ : Tool).version
      = (⟨"node", "18", .install_args⟩ : Tool).version :=
  toolCacheKey_injective_dashfree ⟨"node", "18", .install_args⟩
    ⟨"node", "18", .install_args⟩ "mise-v1" "linux-x64" (by decide) (by decide) rfl

/-- Counterexample to claim C7 as stated: the tools a-b at version c and
a at version b-c are distinct name/version pairs, yet their tool hashes
and full per-tool cache keys coincide. -/
theorem toolHash_collision :
    (⟨"a-b", "c", .install_args⟩ : Tool) ≠ ⟨"a", "b-c", .install_args⟩
    ∧ generateToolHash ⟨"a-b", "c", .install_args⟩
      = generateToolHash ⟨"a", "b-c", .install_args⟩
    ∧ toolCacheKey "mise-v1" "linux-x64" ⟨"a-b", "c", .install_args⟩
      = toolCacheKey "mise-v1" "linux-x64" ⟨"a", "b-c", .install_args⟩ := by
  refine ⟨by decide, by decide, by decide⟩

/-! ### Round trip between toolsToInstallArgs and parseInstallArgs -/

theorem map_ext_mem {α β : Type} (f g : α → β) :
    ∀ (l : List α), (∀ a ∈ l, f a = g a) → l.map f = l.map g := by
  intro l
  induction l with
  | nil => intro _; rfl
  | cons x xs ih =>
    intro h
    simp only [List.map_cons]
    rw [h x (List.mem_cons_self _ _), ih (fun a ha => h a (List.mem_cons_of_mem x ha))]

theorem filterMap_map_all {α β γ : Type} (f : β → Option γ) (g : α → β) (hfun : α → γ) :
    ∀ (l : List α), (∀ a ∈ l, f (g a) = some (hfun a)) →
      (l.map g).filterMap f = l.map hfun := by
  intro l
  induction l with
  | nil => intro _; rfl
  | cons x xs ih =>
    intro h
    simp only [List.map_cons, List.filterMap_cons]
    rw [h x (List.mem_cons_self _ _), ih (fun a ha => h a (List.mem_cons_of_mem x ha))]

theorem splitListChar_no_sep (sep : Char) :
    ∀ (x : List Char), sep ∉ x → splitListChar sep x = [x] := by
  intro x
  induction x with
  | nil => intro _; rfl
  | cons c cs ih =>
    intro h
    have hc : ¬ c = sep := fun hc => h (hc ▸ List.mem_cons_self _ _)
    simp only [splitListChar, if_neg hc]
    rw [ih (fun hm => h (List.mem_cons_of_mem c hm))]

theorem splitListChar_append (sep : Char) :
    ∀ (x rest : List Char), sep ∉ x →
      splitListChar sep (x ++ sep :: rest) = x :: splitListChar sep rest := by
  intro x
  induction x with
  | nil =>
    intro rest _
    show splitListChar sep (sep :: rest) = [] :: splitListChar sep rest
    simp [splitListChar]
  | cons c cs ih =>
    intro rest h
    have hc : ¬ c = sep := fun hc => h (hc ▸ List.mem_cons_self _ _)
    show splitListChar sep (c :: (cs ++ sep :: rest)) = (c :: cs) :: splitListChar sep rest
    simp only [splitListChar, if_neg hc]
    rw [ih rest (fun hm => h (List.mem_cons_of_mem c hm))]

theorem splitListChar_join (sep : Char) :
    ∀ (parts : List (List Char)), parts ≠ [] → (∀ p ∈ parts, sep ∉ p) →
      splitListChar sep (joinListChar sep parts) = parts := by
  intro parts
  induction parts with
  | nil =>
    intro hne _
    exact absurd rfl hne
  | cons x rest ih =>
    intro _ hall
    cases rest with
    | nil =>
      show splitListChar sep x = [x]
      exact splitListChar_no_sep sep x (hall x (by simp))
    | cons y ys =>
      show splitListChar sep (x ++ sep :: joinListChar sep (y :: ys)) = x :: (y :: ys)
      rw [splitListChar_append sep x _ (hall x (by simp))]
      rw [ih (by simp) (fun p hp => hall p (List.mem_cons_of_mem x hp))]

theorem dropWhile_eq_self_of_all (p : Char → Bool) (l : List Char)
    (h : ∀ c ∈ l, p c = false) : l.dropWhile p = l := by
  cases l with
  | nil => rfl
  | cons c cs => simp [List.dropWhile_cons, h c (List.mem_cons_self _ _)]

theorem trimList_id (l : List Char) (h : ∀ c ∈ l, jsSpace c = false) :
    trimList l = l := by
  unfold trimList
  rw [dropWhile_eq_self_of_all _ l h]
  rw [dropWhile_eq_self_of_all _ l.reverse (fun c hc => h c (List.mem_reverse.mp hc))]
  exact List.reverse_reverse l

theorem jsTrim_id (s : String) (h : ∀ c ∈ s.data, jsSpace c = false) :
    jsTrim s = s := by
  unfold jsTrim
  rw [trimList_id s.data h]

theorem token_data (t : Tool) :
    (t.name ++ "@" ++ t.version).data = t.name.data ++ '@' :: t.version.data := by
  simp [data_append, List.append_assoc]

theorem parseToolSpec_token (name version : String)
    (hn : name.data ≠ []) (hv : version.data ≠ [])
    (hna : ∀ c ∈ name.data, jsSpace c = false ∧ c ≠ '@')
    (hva : ∀ c ∈ version.data, jsSpace c = false ∧ c ≠ '@') :
    parseToolSpec (name ++ "@" ++ version) .install_args
      = some ⟨name, version, .install_args⟩ := by
  have hd : (name ++ "@" ++ version).data = name.data ++ '@' :: version.data := by
    simp [data_append, List.append_assoc]
  unfold parseToolSpec jsSplit
  rw [hd]
  rw [splitListChar_append '@' name.data version.data (fun hm => (hna _ hm).2 rfl)]
  rw [splitListChar_no_sep '@' version.data (fun hm => (hva _ hm).2 rfl)]
  show (if name = "" ∨ version = "" then none
    else some (Tool.mk (jsTrim name) (jsTrim version) Source.install_args))
    = some (Tool.mk name version Source.install_args)
  have hne : ¬ (name = "" ∨ version = "") := by
    rintro (hc | hc)
    · exact hn (by simp [hc])
    · exact hv (by simp [hc])
  rw [if_neg hne]
  rw [jsTrim_id name (fun c hc => (hna c hc).1),
    jsTrim_id version (fun c hc => (hva c hc).1)]

/-- Claim C8 (amended): re-parsing the space-joined name-at-version
serialization through the explicit-arguments path reproduces the tools
(names and versions, in order) with every source re-tagged as
install_args, provided each name and version is non-empty, contains no
whitespace and no at-sign, and the name does not start with a dash. The
counterexample shows the claim fails as stated, both because versions
may contain spaces and because the source tag changes. -/
theorem roundtrip_amended (ts : List Tool)
    (h : ∀ t ∈ ts, t.name.data ≠ [] ∧ t.version.data ≠ []
      ∧ (∀ c ∈ t.name.data, jsSpace c = false ∧ c ≠ '@')
      ∧ (∀ c ∈ t.version.data, jsSpace c = false ∧ c ≠ '@')
      ∧ jsStartsWithChar '-' t.name = false) :
    parseInstallArgs (toolsToInstallArgs ts)
      = ts.map (fun t => ⟨t.name, t.version, .install_args⟩) := by
  have hjoin : (toolsToInstallArgs ts).data
      = joinListChar ' ' (ts.map (fun t => (t.name ++ "@" ++ t.version).data)) := by
    unfold toolsToInstallArgs jsJoin
    rw [List.map_map]
    rfl
  have hnosp : ∀ p ∈ ts.map (fun t => (t.name ++ "@" ++ t.version).data), (' ' : Char) ∉ p := by
    intro p hp
    obtain ⟨t, ht, rfl⟩ := List.mem_map.mp hp
    obtain ⟨_, _, hna, hva, _⟩ := h t ht
    rw [token_data]
    intro hc
    rcases List.mem_append.mp hc with hc | hc
    · have := (hna _ hc).1
      simp [jsSpace] at this
    · rcases List.mem_cons.mp hc with hc | hc
      · exact absurd hc (by decide)
      · have := (hva _ hc).1
        simp [jsSpace] at this
  cases hts : ts with
  | nil => rfl
  | cons t0 ts0 =>
    have hne : ¬ toolsToInstallArgs ts = "" := by
      intro hc
      have hdata := congrArg String.data hc
      rw [hjoin, hts] at hdata
      simp only [List.map_cons] at hdata
      cases ts0 with
      | nil =>
        simp only [List.map_nil] at hdata
        rw [show joinListChar ' ' [(t0.name ++ "@" ++ t0.version).data]
            = (t0.name ++ "@" ++ t0.version).data from rfl, token_data] at hdata
        have hdata2 : t0.name.data ++ '@' :: t0.version.data = [] := hdata
        simp at hdata2
      | cons t1 ts1 =>
        simp only [List.map_cons] at hdata
        rw [show joinListChar ' ' ((t0.name ++ "@" ++ t0.version).data
            :: (t1.name ++ "@" ++ t1.version).data
            :: ts1.map (fun t => (t.name ++ "@" ++ t.version).data))
          = (t0.name ++ "@" ++ t0.version).data
            ++ ' ' :: joinListChar ' ' ((t1.name ++ "@" ++ t1.version).data
              :: ts1.map (fun t => (t.name ++ "@" ++ t.version).data)) from rfl,
          token_data] at hdata
        have hdata2 : (t0.name.data ++ '@' :: t0.version.data)
            ++ ' ' :: joinListChar ' ' ((t1.name ++ "@" ++ t1.version).data
              :: ts1.map (fun t => (t.name ++ "@" ++ t.version).data)) = [] := hdata
        simp at hdata2
    rw [← hts]
    unfold parseInstallArgs
    rw [if_neg hne]
    have hsplit : jsSplit ' ' (toolsToInstallArgs ts)
        = ts.map (fun t => t.name ++ "@" ++ t.version) := by
      unfold jsSplit
      rw [hjoin]
      rw [splitListChar_join ' ' _ (by rw [hts]; simp) hnosp]
      rw [List.map_map]
      exact map_ext_mem _ _ ts (fun t _ => rfl)
    rw [hsplit]
    have hfilter : (ts.map (fun t => t.name ++ "@" ++ t.version)).filter
        (fun arg => jsTrim arg != "" && !(jsStartsWithChar '-' arg))
        = ts.map (fun t => t.name ++ "@" ++ t.version) := by
      apply List.filter_eq_self.mpr
      intro a ha
      obtain ⟨t, ht, rfl⟩ := List.mem_map.mp ha
      obtain ⟨hn, hv, hna, hva, hdash⟩ := h t ht
      have htrim : jsTrim (t.name ++ "@" ++ t.version) = t.name ++ "@" ++ t.version := by
        apply jsTrim_id
        rw [token_data]
        intro c hc
        rcases List.mem_append.mp hc with hc | hc
        · exact (hna c hc).1
        · rcases List.mem_cons.mp hc with rfl | hc
          · decide
          · exact (hva c hc).1
      rw [Bool.and_eq_true]
      constructor
      · rw [htrim, bne_iff_ne]
        intro hc
        have hdata := congrArg String.data hc
        rw [token_data] at hdata
        simp at hdata
      · unfold jsStartsWithChar at hdash ⊢
        rw [token_data]
        cases hnd : t.name.data with
        | nil => simp
        | cons c cs =>
          rw [hnd] at hdash
          simpa using hdash
    rw [hfilter]
    apply filterMap_map_all _ _ _ ts
    intro t ht
    obtain ⟨hn, hv, hna, hva, _⟩ := h t ht
    exact parseToolSpec_token t.name t.version hn hv hna hva

/-- Witness for roundtrip_amended at a concrete well-formed mise.toml
tool list. -/
theorem roundtrip_amended_witness :
    parseInstallArgs (toolsToInstallArgs [⟨"node", "20.0.0", .mise_toml⟩,
      ⟨"python", "3.11", .mise_toml⟩])
      = [⟨"node", "20.0.0", .install_args⟩, ⟨"python", "3.11", .install_args⟩] := by
  have h := roundtrip_amended [⟨"node", "20.0.0", .mise_toml⟩, ⟨"python", "3.11", .mise_toml⟩]
    (by
      intro t ht
      rw [List.mem_cons, List.mem_singleton] at ht
      rcases ht with rfl | rfl
      · exact ⟨by decide, by decide, by decide, by decide, by decide⟩
      · exact ⟨by decide, by decide, by decide, by decide, by decide⟩)
  exact h

/-- Counterexample to claim C8 as stated: the tool list parsed from a
mise.toml file whose node entry has the version string 18 17 (with a
space) serializes to node@18 17, which re-parses to node@18 from the
install_args source — neither the versions nor the sources survive the
round trip. -/
theorem roundtrip_fails :
    parseMiseTomlFile "[tools]\nnode = \"18 17\"" = [⟨"node", "18 17", .mise_toml⟩]
    ∧ deduplicateTools [⟨"node", "18 17", .mise_toml⟩] = [⟨"node", "18 17", .mise_toml⟩]
    ∧ parseInstallArgs (toolsToInstallArgs [⟨"node", "18 17", .mise_toml⟩])
      = [⟨"node", "18", .install_args⟩]
    ∧ parseInstallArgs (toolsToInstallArgs [⟨"node", "18 17", .mise_toml⟩])
      ≠ [⟨"node", "18 17", .mise_toml⟩]
    ∧ (parseInstallArgs (toolsToInstallArgs [⟨"node", "18 17", .mise_toml⟩])).map
        (fun t => (t.name, t.version))
      ≠ ([⟨"node", "18 17", .mise_toml⟩] : List Tool).map (fun t => (t.name, t.version)) := by
  refine ⟨by decide, by decide, by decide, by decide, by decide⟩

end MiseAction
